import Mathlib

/-!
# Verification of the rview in-viewer tabular data engine

Shallow embedding of the client-side filter / sort / virtual-scroll /
column-resize pipeline of the `SimpleDataViewerPanel` webview script
(`_getDataHtml`), together with the `_escapeHtml` helper and the
load-result dispatch of `_loadData`.

Conventions of the embedding:
* JS strings are Lean `String`s (or `List Char` where character-level
  reasoning is needed); the ASCII characters relevant to the claims
  behave identically in UTF-16 and in unicode scalar values.
* JS numbers produced by `parseFloat` are modelled exactly, as rationals
  extended with the two infinities; `NaN` is `Option.none`.  The only
  idealisation is that the model does not round to binary64.
* `Array.prototype.sort` is required by the ECMAScript specification to
  be a stable comparison sort; it is modelled by a stable insertion sort.
* DOM state touched by the engine (filter inputs, column widths, render
  window) is modelled by explicit state values.
-/

namespace RView

open scoped List

/-! ## Data model

The success payload delivers `columns : string[]` and `rows : string[][]`;
the script turns each kept record into `{ data: row, originalIndex: i }`. -/

/-- A display row of the webview script: one payload record together with
its position in the untouched payload (`{ data: row, originalIndex: i }`). -/
structure DisplayRow where
  data : List String
  originalIndex : Nat
deriving DecidableEq, Repr

/-- Cell access `row[col] || ''`: an absent / out-of-range cell is the
empty string (and an empty-string cell is unchanged by `|| ''`). -/
def cellAt (row : List String) (col : Nat) : String :=
  row.getD col ""

/-- ECMAScript `StrWhiteSpace` characters (the ASCII ones plus NBSP;
further Unicode space characters are not relevant to the claims). -/
def isJsWhitespace (c : Char) : Bool :=
  c = ' ' || c = '\t' || c = '\n' || c = '\r' ||
    c = Char.ofNat 11 || c = Char.ofNat 12 || c = Char.ofNat 160

/-- `String.prototype.toLowerCase`, character by character. -/
def jsToLower (s : String) : String :=
  ⟨s.data.map Char.toLower⟩

/-- `String.prototype.trim`: strip whitespace from both ends. -/
def jsTrim (s : String) : String :=
  ⟨((s.data.dropWhile isJsWhitespace).reverse.dropWhile isJsWhitespace).reverse⟩

/-! ## Substring containment (`String.prototype.includes`) -/

/-- `hasSubstr hay needle` is the character-level model of
`hay.includes(needle)`: `needle` occurs contiguously in `hay`. -/
def hasSubstr (hay needle : List Char) : Bool :=
  if needle.isPrefixOf hay then true
  else
    match hay with
    | [] => false
    | _ :: t => hasSubstr t needle

/-- String-level wrapper of `hasSubstr`. -/
def strContains (hay needle : String) : Bool :=
  hasSubstr hay.data needle.data

theorem isPrefixOf_iff {l₁ l₂ : List Char} : l₁.isPrefixOf l₂ = true ↔ l₁ <+: l₂ := by
  induction l₁ generalizing l₂ with
  | nil => simp [List.isPrefixOf]
  | cons a t ih =>
    cases l₂ with
    | nil => simp [List.isPrefixOf]
    | cons b t₂ =>
      simp only [List.isPrefixOf, Bool.and_eq_true, beq_iff_eq, ih, List.cons_prefix_cons]

/-- `hasSubstr` decides exactly the infix (contiguous substring) relation. -/
theorem hasSubstr_iff_infix {hay needle : List Char} :
    hasSubstr hay needle = true ↔ needle <:+: hay := by
  induction hay with
  | nil =>
    rw [hasSubstr]
    constructor
    · intro h
      split at h
      · rename_i hp
        exact (isPrefixOf_iff.mp hp).isInfix
      · simp at h
    · intro h
      have : needle = [] := List.eq_nil_of_infix_nil h
      simp [this, List.isPrefixOf]
  | cons a t ih =>
    rw [hasSubstr]
    constructor
    · intro h
      split at h
      · rename_i hp
        exact (isPrefixOf_iff.mp hp).isInfix
      · exact List.infix_cons (ih.mp h)
    · intro h
      rcases List.infix_cons_iff.mp h with hp | ht
      · simp [isPrefixOf_iff.mpr hp]
      · split
        · rfl
        · exact ih.mpr ht

/-! ## Filter engine

`applyFiltersAndSort` collects the per-column predicates
(`input.value.toLowerCase().trim()`, empty predicates skipped), then either
maps every record to a display row (no filters) or keeps exactly the
records matching every predicate, in original order. -/

/-- The inner `for (const col of filterCols)` loop with its early `break`:
a record matches iff every active predicate's substring occurs in the
lowercased cell of its column. -/
def rowMatches (filters : List (Nat × String)) (row : List String) : Bool :=
  filters.all fun cp => strContains (jsToLower (cellAt row cp.1)) cp.2

/-- The no-filter branch `originalRows.map((row, i) => ({data: row, originalIndex: i}))`,
with the running original index made explicit. -/
def enumDisplay : List (List String) → Nat → List DisplayRow
  | [], _ => []
  | r :: rs, i => ⟨r, i⟩ :: enumDisplay rs (i + 1)

/-- The filtering loop `for (let i = 0; i < originalRows.length; i++) { ... }`
pushing `{ data: row, originalIndex: i }` for each matching record. -/
def filterRowsAux (filters : List (Nat × String)) :
    List (List String) → Nat → List DisplayRow
  | [], _ => []
  | r :: rs, i =>
    if rowMatches filters r then
      ⟨r, i⟩ :: filterRowsAux filters rs (i + 1)
    else
      filterRowsAux filters rs (i + 1)

/-- The filter step of `applyFiltersAndSort`: identity enumeration when no
filter is active, otherwise the filtering loop. -/
def applyFilters (filters : List (Nat × String)) (originalRows : List (List String)) :
    List DisplayRow :=
  if filters = [] then enumDisplay originalRows 0
  else filterRowsAux filters originalRows 0

/-- Collection of the filter map from the per-column filter inputs:
`input.value.toLowerCase().trim()`, dropping columns whose predicate is empty. -/
def collectFilters (inputs : List String) : List (Nat × String) :=
  (inputs.enum).filterMap fun p =>
    let v := jsTrim (jsToLower p.2)
    if v = "" then none else some (p.1, v)

theorem filterRowsAux_eq_filter_enumDisplay (filters : List (Nat × String))
    (rows : List (List String)) (i : Nat) :
    filterRowsAux filters rows i =
      (enumDisplay rows i).filter fun dr => rowMatches filters dr.data := by
  induction rows generalizing i with
  | nil => rfl
  | cons r rs ih =>
    rw [filterRowsAux, enumDisplay, List.filter_cons]
    by_cases h : rowMatches filters r
    · simp [h, ih]
    · simp [h, ih]

theorem mem_enumDisplay {rows : List (List String)} {i : Nat} {dr : DisplayRow} :
    dr ∈ enumDisplay rows i ↔
      ∃ j, rows.get? j = some dr.data ∧ dr.originalIndex = i + j := by
  induction rows generalizing i with
  | nil => simp [enumDisplay]
  | cons r rs ih =>
    rw [enumDisplay]
    constructor
    · intro h
      rcases List.mem_cons.mp h with h | h
      · subst h
        exact ⟨0, by simp⟩
      · rcases ih.mp h with ⟨j, hj, hidx⟩
        exact ⟨j + 1, by simpa using hj, by omega⟩
    · rintro ⟨j, hj, hidx⟩
      cases j with
      | zero =>
        simp only [List.get?_cons_zero, Option.some.injEq] at hj
        have hdr : dr = ⟨r, i⟩ := by
          cases dr
          simp only [DisplayRow.mk.injEq]
          exact ⟨hj.symm, by simpa using hidx⟩
        rw [hdr]
        exact List.mem_cons_self _ _
      | succ j' =>
        exact List.mem_cons_of_mem _ (ih.mpr ⟨j', by simpa using hj, by omega⟩)

theorem enumDisplay_pairwise (rows : List (List String)) (i : Nat) :
    (enumDisplay rows i).Pairwise fun a b => a.originalIndex < b.originalIndex := by
  induction rows generalizing i with
  | nil => exact List.Pairwise.nil
  | cons r rs ih =>
    rw [enumDisplay]
    refine List.Pairwise.cons ?_ (ih (i + 1))
    intro b hb
    rcases mem_enumDisplay.mp hb with ⟨j, _, hidx⟩
    simp only [hidx]
    omega

theorem rowMatches_iff {filters : List (Nat × String)} {row : List String}
    (hlow : ∀ cp ∈ filters, jsToLower cp.2 = cp.2) :
    rowMatches filters row = true ↔
      ∀ cp ∈ filters, (jsToLower cp.2).data <:+: (jsToLower (cellAt row cp.1)).data := by
  rw [rowMatches, List.all_eq_true]
  refine forall_congr' fun cp => forall_congr' fun hcp => ?_
  rw [strContains, hasSubstr_iff_infix, hlow cp hcp]

theorem mem_applyFilters {filters : List (Nat × String)} {rows : List (List String)}
    {dr : DisplayRow} (hlow : ∀ cp ∈ filters, jsToLower cp.2 = cp.2) :
    dr ∈ applyFilters filters rows ↔
      rows.get? dr.originalIndex = some dr.data ∧
        ∀ cp ∈ filters, (jsToLower cp.2).data <:+: (jsToLower (cellAt dr.data cp.1)).data := by
  rw [applyFilters]
  split
  · rename_i hnil
    subst hnil
    rw [mem_enumDisplay]
    constructor
    · rintro ⟨j, hj, hidx⟩
      refine ⟨by simpa [hidx] using hj, by simp⟩
    · rintro ⟨hget, -⟩
      exact ⟨dr.originalIndex, hget, by omega⟩
  · rw [filterRowsAux_eq_filter_enumDisplay, List.mem_filter, mem_enumDisplay,
      rowMatches_iff hlow]
    constructor
    · rintro ⟨⟨j, hj, hidx⟩, hm⟩
      exact ⟨by simpa [hidx] using hj, hm⟩
    · rintro ⟨hget, hm⟩
      exact ⟨⟨dr.originalIndex, hget, by omega⟩, hm⟩

/-- **C1**: the filter step of `applyFiltersAndSort` produces exactly the
display rows `(originalIndex, cellValues)` whose lowercase cell value at
every filtered column contains the lowercase predicate substring
(absent cells read as the empty string), preserving the payload's original
row order, and an empty filter map yields all rows unchanged in order.
The hypothesis records that predicate strings are already lowercased, as
the collection step of `applyFiltersAndSort` guarantees. -/
theorem c1_filter_step_correct (filters : List (Nat × String))
    (rows : List (List String))
    (hlow : ∀ cp ∈ filters, jsToLower cp.2 = cp.2) :
    (∀ dr, dr ∈ applyFilters filters rows ↔
        rows.get? dr.originalIndex = some dr.data ∧
          ∀ cp ∈ filters,
            (jsToLower cp.2).data <:+: (jsToLower (cellAt dr.data cp.1)).data) ∧
    (applyFilters filters rows).Pairwise
      (fun a b => a.originalIndex < b.originalIndex) ∧
    applyFilters [] rows = enumDisplay rows 0 := by
  refine ⟨fun dr => mem_applyFilters hlow, ?_, by rw [applyFilters]; simp⟩
  rw [applyFilters]
  split
  · exact enumDisplay_pairwise rows 0
  · rw [filterRowsAux_eq_filter_enumDisplay]
    exact (enumDisplay_pairwise rows 0).filter _

/-- Witness for C1 at the spec's §8 scenario: payload rows
`[["Alice","25"],["Bob","9"],["Carl","30"]]` with filter `{1 : "2"}`
keep exactly the row `["Alice","25"]` at original index 0. -/
theorem c1_filter_step_correct_witness :
    (∀ cp ∈ [((1 : Nat), "2")], jsToLower cp.2 = cp.2) ∧
      (⟨["Alice", "25"], 0⟩ ∈
          applyFilters [(1, "2")] [["Alice", "25"], ["Bob", "9"], ["Carl", "30"]] ↔
        [["Alice", "25"], ["Bob", "9"], ["Carl", "30"]].get? 0 = some ["Alice", "25"] ∧
          ∀ cp ∈ [((1 : Nat), "2")],
            (jsToLower cp.2).data <:+:
              (jsToLower (cellAt ["Alice", "25"] cp.1)).data) := by
  refine ⟨by decide, ?_⟩
  exact (c1_filter_step_correct [(1, "2")]
    [["Alice", "25"], ["Bob", "9"], ["Carl", "30"]] (by decide)).1 ⟨["Alice", "25"], 0⟩

/-! ## Numeric cell values (`parseFloat`)

The comparator tries `parseFloat` on both cells and compares numerically
when neither is `NaN`.  `parseFloat` values are modelled exactly as
rationals extended with the two infinities (no binary64 rounding). -/

/-- A non-`NaN` JavaScript number as produced by `parseFloat`. -/
inductive JSF where
  | fin (q : ℚ)
  | pinf
  | ninf
deriving DecidableEq, Repr

/-- Value of a run of decimal digits. -/
def digitsToNat (ds : List Char) : Nat :=
  ds.foldl (fun acc c => acc * 10 + (c.toNat - 48)) 0

/-- Signed decimal digits of an exponent; an absent or ill-formed exponent
part is not consumed by the grammar and contributes `0`. -/
def parseSignedDigits (cs : List Char) : Int :=
  match cs with
  | '+' :: r =>
    if r.takeWhile Char.isDigit = [] then 0 else (digitsToNat (r.takeWhile Char.isDigit) : Int)
  | '-' :: r =>
    if r.takeWhile Char.isDigit = [] then 0 else -(digitsToNat (r.takeWhile Char.isDigit) : Int)
  | r =>
    if r.takeWhile Char.isDigit = [] then 0 else (digitsToNat (r.takeWhile Char.isDigit) : Int)

/-- The optional `ExponentPart` following the mantissa. -/
def parseExponent (cs : List Char) : Int :=
  match cs with
  | 'e' :: r => parseSignedDigits r
  | 'E' :: r => parseSignedDigits r
  | _ => 0

/-- Subtraction of rationals by cross multiplication (definitionally
kernel-evaluable; equal to `p - q` by `ratSub_eq`). -/
def ratSub (p q : ℚ) : ℚ :=
  mkRat (p.num * q.den - q.num * p.den) (p.den * q.den)

/-- Negation of a rational by negating the numerator (equal to `-p` by
`ratNeg_eq`). -/
def ratNeg (p : ℚ) : ℚ :=
  mkRat (-p.num) p.den

theorem ratSub_eq (p q : ℚ) : ratSub p q = p - q := by
  rw [ratSub, Rat.mkRat_eq_div]
  have hp : ((p.den : ℚ)) ≠ 0 := by
    exact_mod_cast p.den_nz
  have hq : ((q.den : ℚ)) ≠ 0 := by
    exact_mod_cast q.den_nz
  have hp' : (p.num : ℚ) = p * p.den :=
    ((eq_div_iff hp).mp (Rat.num_div_den p).symm).symm
  have hq' : (q.num : ℚ) = q * q.den :=
    ((eq_div_iff hq).mp (Rat.num_div_den q).symm).symm
  push_cast
  rw [div_eq_iff (mul_ne_zero hp hq), hp', hq']
  ring

theorem ratNeg_eq (p : ℚ) : ratNeg p = -p := by
  rw [ratNeg, Rat.mkRat_eq_div]
  push_cast
  rw [neg_div, Rat.num_div_den]

/-- ECMAScript `parseFloat`: strip leading whitespace, then interpret the
longest prefix that is a `StrDecimalLiteral` — an optional sign followed by
`Infinity`, or by decimal digits with optional fraction and exponent;
any trailing characters are ignored and `none` models `NaN`.  The value
`±(ip.fp)·10^e` is assembled as the exact rational
`±(ip·10^|fp| + fp)·10^e / 10^|fp|`. -/
def jsParseFloat (s : String) : Option JSF :=
  let cs := s.data.dropWhile isJsWhitespace
  let signAndRest :=
    match cs with
    | '-' :: r => (true, r)
    | '+' :: r => (false, r)
    | _ => (false, cs)
  let neg := signAndRest.1
  let cs1 := signAndRest.2
  if "Infinity".data.isPrefixOf cs1 then
    some (if neg then .ninf else .pinf)
  else
    let ip := cs1.takeWhile Char.isDigit
    let r1 := cs1.dropWhile Char.isDigit
    let fracAndRest :=
      match r1 with
      | '.' :: r => (r.takeWhile Char.isDigit, r.dropWhile Char.isDigit)
      | _ => (([] : List Char), r1)
    let fp := fracAndRest.1
    let r2 := fracAndRest.2
    if ip = [] ∧ fp = [] then none
    else
      let e := parseExponent r2
      let base : Nat := digitsToNat ip * 10 ^ fp.length + digitsToNat fp
      let sbase : Int := if neg then -(base : Int) else (base : Int)
      let v : ℚ :=
        if 0 ≤ e then mkRat (sbase * ((10 ^ e.toNat : Nat) : Int)) (10 ^ fp.length)
        else mkRat sbase (10 ^ fp.length * 10 ^ (-e).toNat)
      some (.fin v)

/-- JavaScript subtraction `numA - numB` of two non-`NaN` numbers; `none`
is the `NaN` produced by `∞ - ∞` of equal signs. -/
def jsfSub : JSF → JSF → Option JSF
  | .fin p, .fin q => some (.fin (ratSub p q))
  | .fin _, .pinf => some .ninf
  | .fin _, .ninf => some .pinf
  | .pinf, .fin _ => some .pinf
  | .pinf, .pinf => none
  | .pinf, .ninf => some .pinf
  | .ninf, .fin _ => some .ninf
  | .ninf, .pinf => some .ninf
  | .ninf, .ninf => none

/-- JavaScript unary minus on a comparator result (`-NaN` is `NaN`). -/
def jsfNeg : Option JSF → Option JSF
  | none => none
  | some (.fin q) => some (.fin (ratNeg q))
  | some .pinf => some .ninf
  | some .ninf => some .pinf

/-- The test `cmp !== 0` fails exactly for the number `0`
(`NaN !== 0` and `±Infinity !== 0` are true). -/
def cmpIsZero : Option JSF → Bool
  | some (.fin q) => q = 0
  | _ => false

/-! ## Text collation -/

/-- A collation token: a maximal digit run, or a single other character. -/
inductive CollTok where
  | num (ds : List Char)
  | chr (c : Char)
deriving DecidableEq, Repr

/-- Split a character list into collation tokens: maximal digit runs become
numeric tokens (a leading digit merges into the run that follows it),
every other character is its own token. -/
def collTokens : List Char → List CollTok
  | [] => []
  | c :: rest =>
    if c.isDigit then
      match collTokens rest with
      | .num ds :: ts => .num (c :: ds) :: ts
      | ts => .num [c] :: ts
    else
      .chr c :: collTokens rest

/-- Comparison of two collation tokens: digit runs by numeric value and
before character tokens, character tokens by scalar value. -/
def collTokCmp : CollTok → CollTok → Int
  | .num ds, .num es =>
    if digitsToNat ds < digitsToNat es then -1
    else if digitsToNat es < digitsToNat ds then 1 else 0
  | .num _, .chr _ => -1
  | .chr _, .num _ => 1
  | .chr a, .chr b => if a.toNat < b.toNat then -1 else if b.toNat < a.toNat then 1 else 0

/-- Lexicographic comparison of token lists. -/
def collListCmp : List CollTok → List CollTok → Int
  | [], [] => 0
  | [], _ :: _ => -1
  | _ :: _, [] => 1
  | a :: as, b :: bs => if collTokCmp a b = 0 then collListCmp as bs else collTokCmp a b

/-- Modelled from the spec: the text comparison
`valA.localeCompare(valB, undefined, { numeric: true, sensitivity: 'base' })`
calls a host (ICU) collation that is not part of the repository.  Following
the spec — locale-aware, case-insensitive (`sensitivity: 'base'`), with
embedded digit runs compared by numeric value rather than lexicographically —
it is modelled by lowercasing both strings, tokenizing maximal digit runs,
and comparing token lists lexicographically. -/
def localeCompareNumericBase (a b : String) : Int :=
  collListCmp (collTokens (jsToLower a).data) (collTokens (jsToLower b).data)

/-! ## Sort engine -/

/-- A sort direction, `'asc'` or `'desc'`. -/
inductive SortDir where
  | asc
  | desc
deriving DecidableEq, Repr

/-- One entry `{ col, dir }` of the sort stack. -/
structure SortKey where
  col : Nat
  dir : SortDir
deriving DecidableEq, Repr

/-- One key's comparison of two cell values: numeric when both `parseFloat`
results are non-`NaN`, otherwise the locale collation. -/
def cellCmp (valA valB : String) : Option JSF :=
  match jsParseFloat valA, jsParseFloat valB with
  | some numA, some numB => jsfSub numA numB
  | _, _ => some (.fin (localeCompareNumericBase valA valB))

/-- The multi-level comparator `(a, b) => { for (const sort of sortStack) ... }`:
the first key whose comparison is not `0` decides, negated when its
direction is descending; if every key ties the comparator returns `0`. -/
def compareRows (sortStack : List SortKey) (a b : DisplayRow) : Option JSF :=
  match sortStack with
  | [] => some (.fin 0)
  | k :: rest =>
    let cmp := cellCmp (cellAt a.data k.col) (cellAt b.data k.col)
    if cmpIsZero cmp then compareRows rest a b
    else if k.dir = .asc then cmp else jsfNeg cmp

/-- `SortCompare` of `Array.prototype.sort`: only the sign of the
comparator's result is used, and a `NaN` result is treated as `+0`. -/
def sortSign (r : Option JSF) : Int :=
  match r with
  | none => 0
  | some (.fin q) => if q < 0 then -1 else if 0 < q then 1 else 0
  | some .pinf => 1
  | some .ninf => -1

/-- The ordering test the sort applies between two display rows. -/
def rowLe (sortStack : List SortKey) (a b : DisplayRow) : Bool :=
  sortSign (compareRows sortStack a b) ≤ 0

/-- Stable insertion: `a` is placed immediately before the first element
`b` with `le a b`; everything else keeps its order. -/
def stableInsert {α : Type*} (le : α → α → Bool) (a : α) : List α → List α
  | [] => [a]
  | b :: l => if le a b then a :: b :: l else b :: stableInsert le a l

/-- `Array.prototype.sort(comparator)` — required by ECMAScript (ES2019+)
to be a stable comparison sort; modelled as a stable insertion sort driven
by the sign of the comparator. -/
def jsStableSort {α : Type*} (le : α → α → Bool) : List α → List α
  | [] => []
  | a :: l => stableInsert le a (jsStableSort le l)

/-- The sort step of `applyFiltersAndSort`:
`if (sortStack.length > 0) filtered.sort(comparator)`. -/
def applySort (sortStack : List SortKey) (filtered : List DisplayRow) : List DisplayRow :=
  if sortStack = [] then filtered else jsStableSort (rowLe sortStack) filtered

theorem cellCmp_of_parse {va vb : String} {x y : JSF}
    (hx : jsParseFloat va = some x) (hy : jsParseFloat vb = some y) :
    cellCmp va vb = jsfSub x y := by
  rw [cellCmp, hx, hy]

theorem cellCmp_of_nan {va vb : String}
    (h : jsParseFloat va = none ∨ jsParseFloat vb = none) :
    cellCmp va vb = some (.fin (localeCompareNumericBase va vb)) := by
  rw [cellCmp]
  rcases hva : jsParseFloat va with _ | x
  · rfl
  · rcases hvb : jsParseFloat vb with _ | y
    · rfl
    · rcases h with h | h
      · rw [hva] at h
        exact absurd h (by simp)
      · rw [hvb] at h
        exact absurd h (by simp)

/-- **C2**: for every pair of display rows and sort key, the comparator
compares the two cell values at that column numerically (`numA - numB`)
when both `parseFloat`, otherwise by the locale-aware numeric-sensitive
collation (so `"2"` orders before `"10"` ascending); descending negates
the comparison; and the next key in precedence order is consulted exactly
when the current key's comparison is `0`. -/
theorem c2_comparator_spec :
    (∀ va vb x y, jsParseFloat va = some x → jsParseFloat vb = some y →
        cellCmp va vb = jsfSub x y) ∧
    (∀ p q : ℚ, jsfSub (.fin p) (.fin q) = some (.fin (p - q)) ∧
        sortSign (jsfSub (.fin p) (.fin q)) =
          (if p < q then -1 else if q < p then 1 else 0)) ∧
    (∀ va vb, jsParseFloat va = none ∨ jsParseFloat vb = none →
        cellCmp va vb = some (.fin (localeCompareNumericBase va vb))) ∧
    sortSign (cellCmp "a2" "a10") = -1 ∧
    (∀ (k : SortKey) rest a b,
        cmpIsZero (cellCmp (cellAt a.data k.col) (cellAt b.data k.col)) = true →
        compareRows (k :: rest) a b = compareRows rest a b) ∧
    (∀ (k : SortKey) rest rest' a b,
        cmpIsZero (cellCmp (cellAt a.data k.col) (cellAt b.data k.col)) = false →
        compareRows (k :: rest) a b = compareRows (k :: rest') a b) ∧
    (∀ c rest a b, compareRows (⟨c, .desc⟩ :: rest) a b =
        (if cmpIsZero (cellCmp (cellAt a.data c) (cellAt b.data c)) then
          compareRows rest a b
         else jsfNeg (compareRows (⟨c, .asc⟩ :: rest) a b))) ∧
    applySort [⟨0, .asc⟩] [⟨["10"], 0⟩, ⟨["2"], 1⟩] = [⟨["2"], 1⟩, ⟨["10"], 0⟩] := by
  refine ⟨fun va vb x y hx hy => cellCmp_of_parse hx hy,
    fun p q => ⟨by rw [jsfSub, ratSub_eq], ?_⟩,
    fun va vb h => cellCmp_of_nan h, by decide, ?_, ?_, ?_, by decide⟩
  · rw [jsfSub, ratSub_eq, sortSign]
    rcases lt_trichotomy p q with h | h | h
    · rw [if_pos (by linarith), if_pos h]
    · subst h
      simp
    · rw [if_neg (by linarith), if_pos (by linarith), if_neg (by linarith),
        if_pos h]
  · intro k rest a b h
    simp [compareRows, h]
  · intro k rest rest' a b h
    simp [compareRows, h]
  · intro c rest a b
    by_cases h : cmpIsZero (cellCmp (cellAt a.data c) (cellAt b.data c)) = true
    · simp [compareRows, h]
    · simp only [Bool.not_eq_true] at h
      simp [compareRows, h]

/-- Witness for C2: the cells `"10"` and `"2"` both parse and are compared
numerically. -/
theorem c2_comparator_spec_witness :
    jsParseFloat "10" = some (.fin 10) ∧ jsParseFloat "2" = some (.fin 2) ∧
      cellCmp "10" "2" = jsfSub (.fin 10) (.fin 2) :=
  ⟨by decide, by decide, c2_comparator_spec.1 "10" "2" _ _ (by decide) (by decide)⟩

/-- **C9**: a cell value is treated as numeric exactly when `parseFloat`
returns non-`NaN`; `"10abc"` parses (as `10`) and compares numerically
against any parsing cell; an absent cell reads as `""`, whose `parseFloat`
is `NaN`, so its comparisons take the collation path. -/
theorem c9_numeric_dispatch :
    (∀ va vb,
      (∃ x y, jsParseFloat va = some x ∧ jsParseFloat vb = some y ∧
          cellCmp va vb = jsfSub x y) ∨
      ((jsParseFloat va = none ∨ jsParseFloat vb = none) ∧
          cellCmp va vb = some (.fin (localeCompareNumericBase va vb)))) ∧
    jsParseFloat "10abc" = some (.fin 10) ∧
    (∀ v x, jsParseFloat v = some x → cellCmp "10abc" v = jsfSub (.fin 10) x) ∧
    jsParseFloat "" = none ∧
    (∀ (row : List String) col, row.length ≤ col → cellAt row col = "") ∧
    (∀ vb, cellCmp "" vb = some (.fin (localeCompareNumericBase "" vb))) := by
  refine ⟨?_, by decide, ?_, by decide, ?_, ?_⟩
  · intro va vb
    rcases hva : jsParseFloat va with _ | x
    · exact Or.inr ⟨Or.inl rfl, cellCmp_of_nan (Or.inl hva)⟩
    · rcases hvb : jsParseFloat vb with _ | y
      · exact Or.inr ⟨Or.inr rfl, cellCmp_of_nan (Or.inr hvb)⟩
      · exact Or.inl ⟨x, y, rfl, rfl, cellCmp_of_parse hva hvb⟩
  · intro v x h
    exact cellCmp_of_parse (by decide) h
  · intro row col h
    rw [cellAt, List.getD_eq_default]
    exact h
  · intro vb
    exact cellCmp_of_nan (Or.inl (by decide))

/-- Witness for C9: `"10abc"` compares as the number `10` against the
parsing cell `"2"`, and the absent cell of the empty row reads as `""`. -/
theorem c9_numeric_dispatch_witness :
    jsParseFloat "2" = some (.fin 2) ∧
      cellCmp "10abc" "2" = jsfSub (.fin 10) (.fin 2) ∧
      ([] : List String).length ≤ 0 ∧ cellAt [] 0 = "" :=
  ⟨by decide, c9_numeric_dispatch.2.2.1 "2" _ (by decide), by decide,
    c9_numeric_dispatch.2.2.2.2.1 [] 0 (by decide)⟩

/-! ## Stability of the sort -/

theorem sublist_stableInsert {α : Type*} (le : α → α → Bool) (x : α) (l : List α) :
    l <+ stableInsert le x l := by
  induction l with
  | nil => simp [stableInsert]
  | cons b t ih =>
    rw [stableInsert]
    split
    · exact List.sublist_cons_self x (b :: t)
    · exact ih.cons₂ b

theorem mem_stableInsert {α : Type*} (le : α → α → Bool) (x y : α) (l : List α) :
    y ∈ stableInsert le x l ↔ y = x ∨ y ∈ l := by
  induction l with
  | nil => simp [stableInsert]
  | cons b t ih =>
    rw [stableInsert]
    split
    · simp [List.mem_cons]
    · simp only [List.mem_cons, ih]
      tauto

theorem mem_jsStableSort {α : Type*} (le : α → α → Bool) (y : α) (l : List α) :
    y ∈ jsStableSort le l ↔ y ∈ l := by
  induction l with
  | nil => simp [jsStableSort]
  | cons x t ih =>
    rw [jsStableSort, mem_stableInsert]
    simp [ih]

theorem pair_sublist_stableInsert {α : Type*} (le : α → α → Bool) {a b : α}
    {l : List α} (hb : b ∈ l) (hab : le a b = true) :
    [a, b] <+ stableInsert le a l := by
  induction l with
  | nil => cases hb
  | cons y t ih =>
    rw [stableInsert]
    split
    · exact (List.singleton_sublist.mpr hb).cons₂ a
    · rename_i hlay
      rcases List.mem_cons.mp hb with rfl | hb'
      · rw [hab] at hlay
        exact absurd rfl hlay
      · exact (ih hb').cons y

theorem pair_sublist_jsStableSort {α : Type*} (le : α → α → Bool) {l : List α}
    {a b : α} (h : [a, b] <+ l) (hab : le a b = true) :
    [a, b] <+ jsStableSort le l := by
  induction l with
  | nil => cases h
  | cons x t ih =>
    rw [jsStableSort]
    cases h with
    | cons _ h' =>
      exact (ih h').trans (sublist_stableInsert le x _)
    | cons₂ _ h' =>
      have hbmem : b ∈ jsStableSort le t :=
        (mem_jsStableSort le b t).mpr (List.singleton_sublist.mp h')
      exact pair_sublist_stableInsert le hbmem hab

theorem compareRows_of_ties {sortStack : List SortKey} {a b : DisplayRow}
    (h : ∀ k ∈ sortStack,
      cmpIsZero (cellCmp (cellAt a.data k.col) (cellAt b.data k.col)) = true) :
    compareRows sortStack a b = some (.fin 0) := by
  induction sortStack with
  | nil => rfl
  | cons k rest ih =>
    have hk := h k (List.mem_cons_self _ _)
    simp only [compareRows, hk, if_true]
    exact ih fun k' hk' => h k' (List.mem_cons_of_mem _ hk')

/-- **C3**: rows that compare equal on every active sort key appear in the
sorted output in the same relative order as in the filtered input — the
sort is stable. -/
theorem c3_sort_stable (sortStack : List SortKey) (filtered : List DisplayRow)
    (a b : DisplayRow) (hsub : [a, b] <+ filtered)
    (hties : ∀ k ∈ sortStack,
      cmpIsZero (cellCmp (cellAt a.data k.col) (cellAt b.data k.col)) = true) :
    [a, b] <+ applySort sortStack filtered := by
  rw [applySort]
  split
  · exact hsub
  · refine pair_sublist_jsStableSort _ hsub ?_
    rw [rowLe, compareRows_of_ties hties]
    decide

/-- Witness for C3: two rows tying (textually) on the single sort key keep
their relative order through the sort. -/
theorem c3_sort_stable_witness :
    (∀ k ∈ [(⟨0, .asc⟩ : SortKey)],
        cmpIsZero (cellCmp (cellAt ["x", "1"] k.col) (cellAt ["x", "2"] k.col)) = true) ∧
      [⟨["x", "1"], 0⟩, ⟨["x", "2"], 1⟩] <+
        applySort [⟨0, .asc⟩] [⟨["x", "1"], 0⟩, ⟨["x", "2"], 1⟩] :=
  ⟨by decide, c3_sort_stable _ _ _ _ (List.Sublist.refl _) (by decide)⟩

/-! ## Header-click sort-cycle state machine

Clicking a sortable header runs: find the column in `sortStack`
(`findIndex`); toggle / remove it when primary, promote it (with direction
reset to ascending) when present deeper, insert it as new primary when
absent; finally pop the last entry if the stack exceeds 3. -/

/-- JS `sortStack.findIndex(s => s.col === col)`: index of the first entry
for the column, `-1` when absent. -/
def jsFindIndex (c : Nat) (sortStack : List SortKey) : Int :=
  match sortStack.findIdx? (fun k => k.col == c) with
  | some i => (i : Int)
  | none => -1

/-- The branch cascade of the header-click handler, before the stack-depth
limit is applied.  `existingIndex` is the JS `findIndex` result (`-1` when
the column is absent). -/
def headerClickPre (c : Nat) (sortStack : List SortKey) : List SortKey :=
  let existingIndex : Int := jsFindIndex c sortStack
  if existingIndex = 0 then
    match sortStack with
    | [] => []
    | k :: t => if k.dir = .asc then ⟨c, .desc⟩ :: t else t
  else if existingIndex > 0 then
    ⟨c, .asc⟩ :: sortStack.eraseIdx existingIndex.toNat
  else
    ⟨c, .asc⟩ :: sortStack

/-- `if (sortStack.length > 3) sortStack.pop()`: drop the last entry when
the stack exceeds 3 levels. -/
def popExcess (s : List SortKey) : List SortKey :=
  if s.length > 3 then s.dropLast else s

/-- The complete header-click transition of the sort stack. -/
def headerClick (c : Nat) (sortStack : List SortKey) : List SortKey :=
  popExcess (headerClickPre c sortStack)

/-- The clear-sort action `sortStack = []`. -/
def clearSort : List SortKey := []

theorem findIdx?_eq_some_split {α : Type*} {p : α → Bool} {s : List α} {n : Nat}
    (h : s.findIdx? p = some n) :
    ∃ u x v, s = u ++ x :: v ∧ u.length = n ∧ p x = true ∧ ∀ k ∈ u, p k = false := by
  induction s generalizing n with
  | nil => simp [List.findIdx?] at h
  | cons a t ih =>
    rw [List.findIdx?_cons] at h
    by_cases hpa : p a
    · rw [if_pos hpa] at h
      obtain rfl : 0 = n := by simpa using h
      exact ⟨[], a, t, rfl, rfl, hpa, by simp⟩
    · rw [if_neg hpa, List.findIdx?_succ] at h
      rcases ht : t.findIdx? p with _ | m
      · rw [ht] at h
        simp at h
      · rw [ht] at h
        simp only [Option.map_some', Option.some.injEq] at h
        obtain ⟨u, x, v, rfl, hlen, hx, hu⟩ := ih ht
        refine ⟨a :: u, x, v, rfl, by simp [hlen, ← h], hx, ?_⟩
        intro k hk
        rcases List.mem_cons.mp hk with rfl | hk'
        · exact Bool.eq_false_iff.mpr hpa
        · exact hu k hk'

theorem findIdx?_eq_length_append {α : Type*} {p : α → Bool} (u v : List α) (x : α)
    (hu : ∀ k ∈ u, p k = false) (hx : p x = true) :
    (u ++ x :: v).findIdx? p = some u.length := by
  induction u with
  | nil => simp [List.findIdx?_cons, hx]
  | cons a t ih =>
    have ha := hu a (List.mem_cons_self _ _)
    simp [List.findIdx?_cons, ha, ih fun k hk => hu k (List.mem_cons_of_mem _ hk)]

theorem eraseIdx_append_length {α : Type*} (u v : List α) (x : α) :
    (u ++ x :: v).eraseIdx u.length = u ++ v := by
  induction u with
  | nil => rfl
  | cons a t ih => simpa [List.eraseIdx_cons_succ] using ih

theorem headerClick_primary_asc (c : Nat) (t : List SortKey)
    (h3 : ((⟨c, .asc⟩ : SortKey) :: t).length ≤ 3) :
    headerClick c (⟨c, .asc⟩ :: t) = ⟨c, .desc⟩ :: t := by
  have hpre : headerClickPre c (⟨c, .asc⟩ :: t) = ⟨c, .desc⟩ :: t := by
    simp [headerClickPre.eq_def, jsFindIndex.eq_def, List.findIdx?_cons]
  rw [headerClick, hpre, popExcess, if_neg]
  simp only [List.length_cons] at h3 ⊢
  omega

theorem headerClick_primary_desc (c : Nat) (t : List SortKey)
    (h3 : ((⟨c, .desc⟩ : SortKey) :: t).length ≤ 3) :
    headerClick c (⟨c, .desc⟩ :: t) = t := by
  have hpre : headerClickPre c (⟨c, .desc⟩ :: t) = t := by
    simp [headerClickPre.eq_def, jsFindIndex.eq_def, List.findIdx?_cons]
  rw [headerClick, hpre, popExcess, if_neg]
  simp only [List.length_cons] at h3
  omega

theorem headerClick_promote (c : Nat) (u v : List SortKey) (x : SortKey)
    (h3 : (u ++ x :: v).length ≤ 3) (hu : u ≠ []) (hxc : x.col = c)
    (hus : ∀ k ∈ u, k.col ≠ c) :
    headerClick c (u ++ x :: v) = ⟨c, .asc⟩ :: (u ++ v) := by
  have hfind : ((u ++ x :: v).findIdx? fun k => k.col == c) = some u.length := by
    refine findIdx?_eq_length_append u v x ?_ (by simp [hxc])
    intro k hk
    simp [hus k hk]
  obtain ⟨a, u', rfl⟩ : ∃ a u', u = a :: u' := by
    cases u with
    | nil => exact absurd rfl hu
    | cons a u' => exact ⟨a, u', rfl⟩
  have hidx : jsFindIndex c (a :: u' ++ x :: v) = ((a :: u').length : Int) := by
    rw [jsFindIndex.eq_def, hfind]
  have hpre : headerClickPre c (a :: u' ++ x :: v) =
      ⟨c, .asc⟩ :: (a :: u' ++ v) := by
    rw [headerClickPre.eq_def, hidx]
    rw [if_neg (by simp only [List.length_cons]; omega),
      if_pos (by simp only [List.length_cons]; omega)]
    have htn : (((a :: u').length : Int)).toNat = (a :: u').length := by omega
    rw [htn, eraseIdx_append_length]
  rw [headerClick, hpre, popExcess, if_neg]
  simp only [List.length_cons, List.length_append] at h3 ⊢
  omega

theorem headerClick_insert (c : Nat) (s : List SortKey) (h3 : s.length ≤ 3)
    (habs : ∀ k ∈ s, k.col ≠ c) :
    headerClick c s = (⟨c, .asc⟩ :: s).take 3 := by
  have hfind : (s.findIdx? fun k => k.col == c) = none := by
    rw [List.findIdx?_eq_none_iff]
    intro k hk
    simp [habs k hk]
  have hidx : jsFindIndex c s = -1 := by
    rw [jsFindIndex.eq_def, hfind]
  have hpre : headerClickPre c s = ⟨c, .asc⟩ :: s := by
    rw [headerClickPre.eq_def, hidx]
    rw [if_neg (by omega), if_neg (by omega)]
  rw [headerClick, hpre, popExcess]
  by_cases hlen : s.length ≤ 2
  · rw [if_neg (by simp only [List.length_cons]; omega), List.take_of_length_le]
    simp only [List.length_cons]
    omega
  · have h2 : s.length = 3 := by omega
    rw [if_pos (by simp only [List.length_cons]; omega), List.dropLast_eq_take]
    have hl : ((⟨c, SortDir.asc⟩ : SortKey) :: s).length - 1 = 3 := by
      simp only [List.length_cons, h2]
    rw [hl]

/-- **C4**: the header-click transition: a primary-ascending column becomes
primary-descending in place; a primary-descending column is removed; a
column present deeper in the stack is promoted to primary with direction
forced ascending; an absent column is inserted as primary ascending; and
an insertion that would exceed 3 entries drops the last entry
(`(⟨c, asc⟩ :: s).take 3`). -/
theorem c4_header_click (c : Nat) (s : List SortKey) (h3 : s.length ≤ 3) :
    (∀ t, s = ⟨c, .asc⟩ :: t → headerClick c s = ⟨c, .desc⟩ :: t) ∧
    (∀ t, s = ⟨c, .desc⟩ :: t → headerClick c s = t) ∧
    (∀ u x v, s = u ++ x :: v → u ≠ [] → x.col = c → (∀ k ∈ u, k.col ≠ c) →
        headerClick c s = ⟨c, .asc⟩ :: (u ++ v)) ∧
    ((∀ k ∈ s, k.col ≠ c) → headerClick c s = (⟨c, .asc⟩ :: s).take 3) := by
  refine ⟨?_, ?_, ?_, ?_⟩
  · rintro t rfl
    exact headerClick_primary_asc c t h3
  · rintro t rfl
    exact headerClick_primary_desc c t h3
  · rintro u x v rfl hu hxc hus
    exact headerClick_promote c u v x h3 hu hxc hus
  · intro habs
    exact headerClick_insert c s h3 habs

/-- Witness for C4 at a concrete stack: clicking the primary ascending
column `1` turns it descending in place. -/
theorem c4_header_click_witness :
    ([(⟨1, .asc⟩ : SortKey)].length ≤ 3) ∧
      headerClick 1 [⟨1, .asc⟩] = [⟨1, .desc⟩] :=
  ⟨by decide, (c4_header_click 1 [⟨1, .asc⟩] (by decide)).1 [] rfl⟩

/-! ## The sort-stack invariant -/

/-- A user operation that changes the sort stack: a header click on a
column or the clear-sort button. -/
inductive ViewerOp where
  | click (c : Nat)
  | clear

/-- Effect of one operation on the sort stack. -/
def stepSortStack : ViewerOp → List SortKey → List SortKey
  | .click c, s => headerClick c s
  | .clear, _ => clearSort

/-- The sort stack reached from the initial empty stack by a sequence of
header clicks and clear-sort actions. -/
def runSortOps (ops : List ViewerOp) : List SortKey :=
  ops.foldl (fun s op => stepSortStack op s) []

theorem headerClick_inv (c : Nat) (s : List SortKey) (h3 : s.length ≤ 3)
    (hnd : (s.map SortKey.col).Nodup) :
    (headerClick c s).length ≤ 3 ∧ ((headerClick c s).map SortKey.col).Nodup := by
  rcases hidx : s.findIdx? (fun k => k.col == c) with _ | n
  · have habs : ∀ k ∈ s, k.col ≠ c := by
      intro k hk
      simpa using List.findIdx?_eq_none_iff.mp hidx k hk
    rw [headerClick_insert c s h3 habs]
    refine ⟨List.length_take_le _ _, ?_⟩
    have hsub : ((⟨c, .asc⟩ :: s).take 3).map SortKey.col <+
        ((⟨c, .asc⟩ : SortKey) :: s).map SortKey.col :=
      (List.take_sublist _ _).map _
    refine List.Nodup.sublist hsub ?_
    rw [List.map_cons]
    refine List.nodup_cons.mpr ⟨?_, hnd⟩
    intro hmem
    rcases List.mem_map.mp hmem with ⟨k, hk, hkc⟩
    exact habs k hk hkc
  · obtain ⟨u, x, v, rfl, hlen, hx, hus⟩ := findIdx?_eq_some_split hidx
    have hxc : x.col = c := by simpa using hx
    have hus' : ∀ k ∈ u, k.col ≠ c := by
      intro k hk
      simpa using hus k hk
    cases u with
    | nil =>
      obtain ⟨xc, xd⟩ := x
      have hxc2 : c = xc := hxc.symm
      subst hxc2
      cases xd with
      | asc =>
        rw [List.nil_append] at h3 hnd ⊢
        rw [headerClick_primary_asc c v h3]
        simp only [List.length_cons, List.map_cons] at h3 hnd ⊢
        exact ⟨h3, hnd⟩
      | desc =>
        rw [List.nil_append] at h3 hnd ⊢
        rw [headerClick_primary_desc c v h3]
        simp only [List.length_cons, List.map_cons] at h3 hnd
        exact ⟨by omega, (List.nodup_cons.mp hnd).2⟩
    | cons a u' =>
      rw [headerClick_promote c (a :: u') v x h3 (by simp) hxc hus']
      rw [List.map_append, List.map_cons] at hnd
      rcases List.nodup_append.mp hnd with ⟨h1, h2, hdisj⟩
      have hxnotv : x.col ∉ v.map SortKey.col := (List.nodup_cons.mp h2).1
      constructor
      · simp only [List.length_cons, List.length_append] at h3 ⊢
        omega
      · rw [List.map_cons, List.map_append]
        refine List.nodup_cons.mpr ⟨?_, ?_⟩
        · intro hmem
          rcases List.mem_append.mp hmem with hm | hm
          · rcases List.mem_map.mp hm with ⟨k, hk, hkc⟩
            exact hus' k hk hkc
          · exact hxnotv (hxc ▸ hm)
        · refine List.nodup_append.mpr
            ⟨h1, (List.nodup_cons.mp h2).2, fun y hy hy' => ?_⟩
          exact hdisj hy (List.mem_cons_of_mem _ hy')

/-- **C5**: after any sequence of header-click and clear-sort operations
starting from the empty sort stack, the stack holds at most 3 entries and
no column index appears more than once in it. -/
theorem c5_sort_stack_invariant (ops : List ViewerOp) :
    (runSortOps ops).length ≤ 3 ∧ ((runSortOps ops).map SortKey.col).Nodup := by
  rw [runSortOps]
  suffices h : ∀ s : List SortKey, s.length ≤ 3 → (s.map SortKey.col).Nodup →
      (ops.foldl (fun s op => stepSortStack op s) s).length ≤ 3 ∧
        ((ops.foldl (fun s op => stepSortStack op s) s).map SortKey.col).Nodup by
    exact h [] (by simp) (by simp)
  induction ops with
  | nil =>
    intro s h1 h2
    exact ⟨h1, h2⟩
  | cons op t ih =>
    intro s h1 h2
    rw [List.foldl_cons]
    cases op with
    | click c =>
      obtain ⟨g1, g2⟩ := headerClick_inv c s h1 h2
      exact ih _ g1 g2
    | clear =>
      exact ih _ (by simp [stepSortStack, clearSort]) (by simp [stepSortStack, clearSort])

/-! ## Render window manager -/

/-- `const ROWS_PER_BATCH = 100`. -/
def ROWS_PER_BATCH : Nat := 100

/-- The scroll-handler extension step: when more rows remain,
`visibleEndIndex = Math.min(visibleEndIndex + ROWS_PER_BATCH,
displayRows.length)`; otherwise the window is untouched. -/
def extendWindow (visibleEndIndex totalLen : Nat) : Nat :=
  if visibleEndIndex < totalLen then min (visibleEndIndex + ROWS_PER_BATCH) totalLen
  else visibleEndIndex

/-- The engine state produced by `applyFiltersAndSort`: the reset render
window plus the recomputed display rows. -/
structure ViewState where
  visibleStartIndex : Nat
  visibleEndIndex : Nat
  displayRows : List DisplayRow

/-- `applyFiltersAndSort` as a whole: reset the virtual-scroll range to
`[0, ROWS_PER_BATCH)`, collect the filter predicates, filter, then sort. -/
def applyFiltersAndSort (filterInputs : List String) (sortStack : List SortKey)
    (originalRows : List (List String)) : ViewState :=
  { visibleStartIndex := 0
    visibleEndIndex := ROWS_PER_BATCH
    displayRows :=
      applySort sortStack (applyFilters (collectFilters filterInputs) originalRows) }

/-- **C6**: `extend()` grows `visibleEnd` by one fixed batch of 100 rows
capped at the filtered+sorted sequence length — it never sets `visibleEnd`
beyond that length — and every filter/sort recomputation resets the render
window to `[0, batchSize) = [0, 100)`. -/
theorem c6_window_invariants :
    ROWS_PER_BATCH = 100 ∧
    (∀ ve len, ve < len → extendWindow ve len = min (ve + 100) len) ∧
    (∀ ve len, extendWindow ve len ≠ ve → extendWindow ve len ≤ len) ∧
    (∀ fi ss rows, (applyFiltersAndSort fi ss rows).visibleStartIndex = 0 ∧
        (applyFiltersAndSort fi ss rows).visibleEndIndex = 100) := by
  refine ⟨rfl, ?_, ?_, ?_⟩
  · intro ve len h
    rw [extendWindow, if_pos h, ROWS_PER_BATCH]
  · intro ve len h
    rw [extendWindow] at h ⊢
    split at h
    · rename_i hlt
      rw [if_pos hlt]
      exact min_le_right _ _
    · exact absurd rfl h
  · intro fi ss rows
    exact ⟨rfl, rfl⟩

/-- Witness for C6: extending a window of `[0, 100)` over a 5-row sequence
caps `visibleEnd` at 5. -/
theorem c6_window_invariants_witness :
    (0 < 5) ∧ extendWindow 0 5 = min (0 + 100) 5 :=
  ⟨by decide, c6_window_invariants.2.1 0 5 (by decide)⟩

/-! ## Column width controller -/

/-- The fixed minimum column width of `Math.max(60, ...)`. -/
def MIN_COL_WIDTH : Int := 60

/-- The drag state captured on `mousedown` over a resize handle. -/
structure ResizeState where
  isResizing : Bool
  currentCol : Nat
  startX : Int
  startWidth : Int

/-- Explicit per-column widths of the rendered surfaces: the filter header
row, the column-name header row, and each currently rendered body row
(`none` models a cell whose `style.width` has not been set). -/
structure TableWidths where
  filterRow : Nat → Option Int
  headerRow : Nat → Option Int
  bodyRows : List (Nat → Option Int)

/-- The `mousemove` handler: ignored entirely unless a drag is active;
otherwise it computes `newWidth = Math.max(60, startWidth + (pageX -
startX))` and assigns it to the two header cells and every rendered body
cell of `currentCol` (the `nth-child(currentCol + 2)` selectors, the added
2 skipping the row-number column). -/
def onMouseMove (rs : ResizeState) (pageX : Int) (w : TableWidths) : TableWidths :=
  if rs.isResizing = false then w
  else
    let newWidth := max MIN_COL_WIDTH (rs.startWidth + (pageX - rs.startX))
    { filterRow := fun j => if j = rs.currentCol then some newWidth else w.filterRow j
      headerRow := fun j => if j = rs.currentCol then some newWidth else w.headerRow j
      bodyRows := w.bodyRows.map fun row j =>
        if j = rs.currentCol then some newWidth else row j }

/-- **C7**: while a drag is active, each mousemove sets the dragged
column's width to `max(minWidth = 60, capturedWidth + (pointer - start))`
on its header cells and all currently rendered body cells, and leaves the
recorded width of every other column unchanged on every surface; a
mousemove with no active drag changes nothing. -/
theorem c7_resize_isolation (rs : ResizeState) (pageX : Int) (w : TableWidths)
    (hact : rs.isResizing = true) :
    ((onMouseMove rs pageX w).filterRow rs.currentCol =
        some (max MIN_COL_WIDTH (rs.startWidth + (pageX - rs.startX)))) ∧
    ((onMouseMove rs pageX w).headerRow rs.currentCol =
        some (max MIN_COL_WIDTH (rs.startWidth + (pageX - rs.startX)))) ∧
    ((onMouseMove rs pageX w).bodyRows.length = w.bodyRows.length) ∧
    (∀ (i : Nat) (row : Nat → Option Int), w.bodyRows[i]? = some row →
        ((onMouseMove rs pageX w).bodyRows[i]?).map (fun r => r rs.currentCol) =
          some (some (max MIN_COL_WIDTH (rs.startWidth + (pageX - rs.startX))))) ∧
    (∀ j, j ≠ rs.currentCol →
        (onMouseMove rs pageX w).filterRow j = w.filterRow j ∧
        (onMouseMove rs pageX w).headerRow j = w.headerRow j ∧
        ∀ (i : Nat) (row : Nat → Option Int), w.bodyRows[i]? = some row →
          ((onMouseMove rs pageX w).bodyRows[i]?).map (fun r => r j) =
            some (row j)) ∧
    (∀ rs' : ResizeState, rs'.isResizing = false → onMouseMove rs' pageX w = w) := by
  have hcond : ¬ (rs.isResizing = false) := by
    simp [hact]
  refine ⟨?_, ?_, ?_, ?_, ?_, ?_⟩
  · rw [onMouseMove, if_neg hcond]
    simp
  · rw [onMouseMove, if_neg hcond]
    simp
  · rw [onMouseMove, if_neg hcond]
    simp
  · intro i row hrow
    rw [onMouseMove, if_neg hcond]
    simp only [List.getElem?_map, hrow, Option.map_some']
    simp
  · intro j hj
    refine ⟨?_, ?_, ?_⟩
    · rw [onMouseMove, if_neg hcond]
      simp [hj]
    · rw [onMouseMove, if_neg hcond]
      simp [hj]
    · intro i row hrow
      rw [onMouseMove, if_neg hcond]
      simp only [List.getElem?_map, hrow, Option.map_some']
      simp [hj]
  · intro rs' h'
    rw [onMouseMove, if_pos h']

/-- Witness for C7: dragging column 0 (captured width 80) by 10 units sets
its header width to `max(60, 80 + 10) = 90`. -/
theorem c7_resize_isolation_witness :
    ((⟨true, 0, 0, 80⟩ : ResizeState).isResizing = true) ∧
      (onMouseMove ⟨true, 0, 0, 80⟩ 10
          ⟨fun _ => none, fun _ => none, []⟩).headerRow 0 =
        some (max MIN_COL_WIDTH (80 + (10 - 0))) :=
  ⟨rfl, (c7_resize_isolation ⟨true, 0, 0, 80⟩ 10
    ⟨fun _ => none, fun _ => none, []⟩ rfl).2.1⟩

/-! ## HTML escaping (`_escapeHtml`) -/

/-- The double-quote character `"`. -/
def quoteChar : Char := Char.ofNat 34

/-- The single-quote character. -/
def aposChar : Char := Char.ofNat 39

/-- Global single-character replacement: the character-level model of one
`text.replace(/x/g, repl)` pass of `_escapeHtml`. -/
def replaceAllChar (target : Char) (repl : List Char) (s : List Char) : List Char :=
  s.flatMap fun c => if c = target then repl else [c]

/-- `_escapeHtml`: the five chained global replacements, `&` first, then
`<`, `>`, the double quote and the single quote. -/
def escapeHtmlList (s : List Char) : List Char :=
  replaceAllChar aposChar ['&', '#', '0', '3', '9', ';']
    (replaceAllChar quoteChar ['&', 'q', 'u', 'o', 't', ';']
      (replaceAllChar '>' ['&', 'g', 't', ';']
        (replaceAllChar '<' ['&', 'l', 't', ';']
          (replaceAllChar '&' ['&', 'a', 'm', 'p', ';'] s))))

/-- String-level `_escapeHtml`. -/
def escapeHtml (s : String) : String :=
  ⟨escapeHtmlList s.data⟩

/-- The combined effect of the five passes on a single character.  The
earlier passes never reprocess text produced by a later one, so the chain
acts independently on each input character. -/
def escChar (c : Char) : List Char :=
  if c = '&' then ['&', 'a', 'm', 'p', ';']
  else if c = '<' then ['&', 'l', 't', ';']
  else if c = '>' then ['&', 'g', 't', ';']
  else if c = quoteChar then ['&', 'q', 'u', 'o', 't', ';']
  else if c = aposChar then ['&', '#', '0', '3', '9', ';']
  else [c]

theorem replaceAllChar_append (t : Char) (r : List Char) (a b : List Char) :
    replaceAllChar t r (a ++ b) = replaceAllChar t r a ++ replaceAllChar t r b := by
  simp [replaceAllChar]

theorem escapeHtmlList_append (a b : List Char) :
    escapeHtmlList (a ++ b) = escapeHtmlList a ++ escapeHtmlList b := by
  simp [escapeHtmlList, replaceAllChar_append]

theorem escChar_spec (c : Char) : escapeHtmlList [c] = escChar c := by
  rw [escChar]
  by_cases h1 : c = '&'
  · subst h1
    rfl
  rw [if_neg h1]
  by_cases h2 : c = '<'
  · subst h2
    rfl
  rw [if_neg h2]
  by_cases h3 : c = '>'
  · subst h3
    rfl
  rw [if_neg h3]
  by_cases h4 : c = quoteChar
  · subst h4
    rfl
  rw [if_neg h4]
  by_cases h5 : c = aposChar
  · subst h5
    rfl
  rw [if_neg h5]
  simp [escapeHtmlList, replaceAllChar, h1, h2, h3, h4, h5]

theorem escapeHtmlList_eq_flatMap (s : List Char) :
    escapeHtmlList s = s.flatMap escChar := by
  induction s with
  | nil => rfl
  | cons c cs ih =>
    have hsplit : c :: cs = [c] ++ cs := rfl
    rw [hsplit, escapeHtmlList_append, ih, escChar_spec, List.flatMap_append]
    simp

theorem escChar_no_forbidden {c x : Char} (hx : x ∈ escChar c) :
    x ≠ '<' ∧ x ≠ '>' ∧ x ≠ quoteChar ∧ x ≠ aposChar := by
  rw [escChar] at hx
  by_cases h1 : c = '&'
  · rw [if_pos h1] at hx
    fin_cases hx <;> decide
  rw [if_neg h1] at hx
  by_cases h2 : c = '<'
  · rw [if_pos h2] at hx
    fin_cases hx <;> decide
  rw [if_neg h2] at hx
  by_cases h3 : c = '>'
  · rw [if_pos h3] at hx
    fin_cases hx <;> decide
  rw [if_neg h3] at hx
  by_cases h4 : c = quoteChar
  · rw [if_pos h4] at hx
    fin_cases hx <;> decide
  rw [if_neg h4] at hx
  by_cases h5 : c = aposChar
  · rw [if_pos h5] at hx
    fin_cases hx <;> decide
  rw [if_neg h5] at hx
  rcases List.mem_singleton.mp hx with rfl
  exact ⟨h2, h3, h4, h5⟩

/-- The five entity tails that may legally follow a `&` in escaped output. -/
def entityTails : List (List Char) :=
  [['a', 'm', 'p', ';'], ['l', 't', ';'], ['g', 't', ';'],
   ['q', 'u', 'o', 't', ';'], ['#', '0', '3', '9', ';']]

/-- Scanner checking that every `&` is immediately followed by one of the
five entity tails. -/
def ampEscaped : List Char → Bool
  | [] => true
  | c :: rest =>
    ((c != '&') || entityTails.any fun e => e.isPrefixOf rest) && ampEscaped rest

theorem ampEscaped_escChar (c : Char) {r : List Char} (hr : ampEscaped r = true) :
    ampEscaped (escChar c ++ r) = true := by
  rw [escChar]
  by_cases h1 : c = '&'
  · subst h1
    simp [ampEscaped, entityTails, List.isPrefixOf, hr]
  rw [if_neg h1]
  by_cases h2 : c = '<'
  · subst h2
    simp [ampEscaped, entityTails, List.isPrefixOf, hr]
  rw [if_neg h2]
  by_cases h3 : c = '>'
  · subst h3
    simp [ampEscaped, entityTails, List.isPrefixOf, hr]
  rw [if_neg h3]
  by_cases h4 : c = quoteChar
  · subst h4
    simp [ampEscaped, entityTails, List.isPrefixOf, hr]
  rw [if_neg h4]
  by_cases h5 : c = aposChar
  · subst h5
    simp [ampEscaped, entityTails, List.isPrefixOf, hr]
  rw [if_neg h5]
  simp [ampEscaped, h1, hr]

theorem ampEscaped_escape (s : List Char) : ampEscaped (escapeHtmlList s) = true := by
  rw [escapeHtmlList_eq_flatMap]
  induction s with
  | nil => rfl
  | cons c cs ih =>
    rw [List.flatMap_cons]
    exact ampEscaped_escChar c ih

theorem ampEscaped_split {l : List Char} (h : ampEscaped l = true) :
    ∀ l₁ l₂, l = l₁ ++ '&' :: l₂ → ∃ e ∈ entityTails, e.isPrefixOf l₂ = true := by
  intro l₁
  induction l₁ generalizing l with
  | nil =>
    intro l₂ hl
    rw [List.nil_append] at hl
    subst hl
    rw [ampEscaped, Bool.and_eq_true] at h
    rcases h with ⟨h1, -⟩
    rw [Bool.or_eq_true] at h1
    rcases h1 with h1 | h1
    · simp at h1
    · rcases List.any_eq_true.mp h1 with ⟨e, he, hpre⟩
      exact ⟨e, he, hpre⟩
  | cons a t ih =>
    intro l₂ hl
    rw [List.cons_append] at hl
    subst hl
    rw [ampEscaped, Bool.and_eq_true] at h
    exact ih h.2 l₂ rfl

/-- Decoder inverting the five entities of `escapeHtml`; any other
character (including a malformed `&`) is kept as-is. -/
def unescapeHtmlList (l : List Char) : List Char :=
  match l with
  | [] => []
  | c :: rest =>
    if c = '&' then
      if ['a', 'm', 'p', ';'].isPrefixOf rest then
        '&' :: unescapeHtmlList (rest.drop 4)
      else if ['l', 't', ';'].isPrefixOf rest then
        '<' :: unescapeHtmlList (rest.drop 3)
      else if ['g', 't', ';'].isPrefixOf rest then
        '>' :: unescapeHtmlList (rest.drop 3)
      else if ['q', 'u', 'o', 't', ';'].isPrefixOf rest then
        quoteChar :: unescapeHtmlList (rest.drop 5)
      else if ['#', '0', '3', '9', ';'].isPrefixOf rest then
        aposChar :: unescapeHtmlList (rest.drop 5)
      else '&' :: unescapeHtmlList rest
    else c :: unescapeHtmlList rest
termination_by l.length
decreasing_by
  all_goals (simp only [List.length_drop, List.length_cons]; omega)

theorem unescape_escChar (c : Char) (r : List Char) :
    unescapeHtmlList (escChar c ++ r) = c :: unescapeHtmlList r := by
  rw [escChar]
  by_cases h1 : c = '&'
  · subst h1
    rw [if_pos rfl, List.cons_append, unescapeHtmlList]
    simp [List.isPrefixOf, List.drop, List.cons_append]
  rw [if_neg h1]
  by_cases h2 : c = '<'
  · subst h2
    rw [if_pos rfl, List.cons_append, unescapeHtmlList]
    simp [List.isPrefixOf, List.drop, List.cons_append]
  rw [if_neg h2]
  by_cases h3 : c = '>'
  · subst h3
    rw [if_pos rfl, List.cons_append, unescapeHtmlList]
    simp [List.isPrefixOf, List.drop, List.cons_append]
  rw [if_neg h3]
  by_cases h4 : c = quoteChar
  · subst h4
    rw [if_pos rfl, List.cons_append, unescapeHtmlList]
    simp [List.isPrefixOf, List.drop, List.cons_append, quoteChar]
  rw [if_neg h4]
  by_cases h5 : c = aposChar
  · subst h5
    rw [if_pos rfl, List.cons_append, unescapeHtmlList]
    simp [List.isPrefixOf, List.drop, List.cons_append, aposChar]
  rw [if_neg h5]
  show unescapeHtmlList (c :: r) = c :: unescapeHtmlList r
  rw [unescapeHtmlList, if_neg h1]

/-- `escapeHtml` loses no information: the decoder recovers the input
verbatim (so `escapeHtml` is injective). -/
theorem unescape_escape (s : String) :
    unescapeHtmlList (escapeHtml s).data = s.data := by
  have hdata : (escapeHtml s).data = escapeHtmlList s.data := rfl
  rw [hdata, escapeHtmlList_eq_flatMap]
  induction s.data with
  | nil =>
    rw [List.flatMap_nil, unescapeHtmlList]
  | cons c cs ih =>
    rw [List.flatMap_cons, unescape_escChar, ih]

/-- **C10**: `_escapeHtml` output contains no literal `<`, `>`, double
quote or single quote, and every `&` in the output starts one of the five
replacement entities, so interpolating escaped text cannot introduce
markup. -/
theorem c10_escape_html (s : String) :
    (∀ x ∈ (escapeHtml s).data, x ≠ '<' ∧ x ≠ '>' ∧ x ≠ quoteChar ∧ x ≠ aposChar) ∧
    (∀ l₁ l₂, (escapeHtml s).data = l₁ ++ '&' :: l₂ →
        ∃ e ∈ entityTails, e.isPrefixOf l₂ = true) := by
  have hdata : (escapeHtml s).data = escapeHtmlList s.data := rfl
  constructor
  · intro x hx
    rw [hdata, escapeHtmlList_eq_flatMap] at hx
    rcases List.mem_flatMap.mp hx with ⟨c, -, hc⟩
    exact escChar_no_forbidden hc
  · intro l₁ l₂ hsplit
    rw [hdata] at hsplit
    exact ampEscaped_split (ampEscaped_escape s.data) l₁ l₂ hsplit

/-- Witness for C10 at the input `a&b`, whose escape is `a&amp;b`: its `&`
occurrence is followed by the `amp;` entity tail. -/
theorem c10_escape_html_witness :
    ((escapeHtml "a&b").data = ['a'] ++ '&' :: ['a', 'm', 'p', ';', 'b']) ∧
      ∃ e ∈ entityTails, e.isPrefixOf ['a', 'm', 'p', ';', 'b'] = true :=
  ⟨by decide,
    (c10_escape_html "a&b").2 ['a'] ['a', 'm', 'p', ';', 'b'] (by decide)⟩

/-! ## Load-result dispatch and the error page (`_loadData`) -/

/-- The decoded shape of the payload `_loadData` reads back from the
export file: the failure shape `{error: string}`, the success shape with
columns and rows, or no recognisable payload (timeout / still loading). -/
inductive LoadResult where
  | failure (error : String)
  | success (columns : List String) (rows : List (List String)) (nrow ncol : Nat)
  | pending

/-- The webview page `_loadData` installs for each outcome, carrying the
data relevant to the claims: the error page holds the escaped error text,
the data page holds the payload, the manual-instructions page holds
neither. -/
inductive ViewerPage where
  | errorPage (escapedError : String)
  | dataPage (columns : List String) (rows : List (List String))
  | manualPage

/-- A command the panel can issue to the R session; `runLoad` re-executes
the data export. -/
inductive EngineCommand where
  | runLoad (variableName : String)

/-- The dispatch ending `_loadData`:
`if (data && data.error) → _getErrorHtml; else if (data && data.columns) →
_getDataHtml; else → _getManualHtml`, paired with the engine commands
issued after rendering — none: the only path that re-invokes `_loadData`
is the user's explicit refresh message. -/
def loadDispatch (r : LoadResult) : ViewerPage × List EngineCommand :=
  match r with
  | .failure e => (.errorPage (escapeHtml e), [])
  | .success cols rows _ _ => (.dataPage cols rows, [])
  | .pending => (.manualPage, [])

/-- The data rows a page renders: the error and manual pages render none. -/
def pageDataRows : ViewerPage → List (List String)
  | .dataPage _ rows => rows
  | _ => []

/-- **C8**: an upstream `{error: string}` payload renders the error page —
zero data rows, the error text surfaced verbatim modulo HTML escaping
(recoverable exactly by the decoder, so nothing is lost or altered), and
no re-load is issued (retry is only the user's explicit refresh).  The
dispatch is a total function, so no input crashes it. -/
theorem c8_error_payload (e : String) :
    (loadDispatch (.failure e)).1 = .errorPage (escapeHtml e) ∧
    pageDataRows (loadDispatch (.failure e)).1 = [] ∧
    unescapeHtmlList (escapeHtml e).data = e.data ∧
    (loadDispatch (.failure e)).2 = [] :=
  ⟨rfl, rfl, unescape_escape e, rfl⟩

end RView
